import Mathlib

/-!
Shallow embedding of the IRC text-formatting engine of
`src/util/irctextformat.cpp` and of the member-model operations of
`src/model/ircusermodel.cpp` (libcommuni).

`QString` values are modelled as `List Char`, one entry per Unicode
scalar (every code point the engine inspects — the control bytes,
ASCII digits and punctuation — lies in the BMP, so this agrees with
the UTF-16 view `QString` takes).  Decimal digits are the ASCII
digits `'0'..'9'`.  The externally owned `IrcPalette` is modelled
as a partial map `Nat → Option (List Char)`; `colorName i fallback`
returns the mapped string or the fallback, exactly like
`IrcPalette::colorName`.  The Qt regular-expression engine used by
`parseLinks` is external library code, so it is abstracted as a
`Matcher` argument returning the match position, length and the two
capture groups that the C++ code reads.
-/

namespace Communi

/-- The seven single-byte control codes that both `toHtml` and `toPlainText`
recognise besides the color marker `'\x03'`: bold `02`, reset `0F`,
line-through `13`, underline `15`/`1F`, inverse `16`, italic `1D`. -/
def isStripControl (c : Char) : Bool :=
  c = '\x02' || c = '\x0F' || c = '\x13' || c = '\x15' || c = '\x16' || c = '\x1D' || c = '\x1F'

/-- Value of a (1- or 2-digit) decimal digit string, as produced by
`QString::toInt` on the capture of `(\d{1,2})`. -/
def digitsToNat (ds : List Char) : Nat :=
  ds.foldl (fun a c => 10 * a + (c.toNat - '0'.toNat)) 0

/-- Greedy match of `\d{1,2}` at the head of the list: up to two decimal
digits, returned together with the remaining characters. -/
def takeDigits2 : List Char → List Char × List Char
  | [] => ([], [])
  | c :: rest =>
    if c.isDigit then
      match rest with
      | c2 :: rest2 => if c2.isDigit then ([c, c2], rest2) else ([c], rest)
      | [] => ([c], [])
    else ([], c :: rest)

/-- `parseColors(message, pos, …)` of irctextformat.cpp: anchored match of the
regular expression `(\d{1,2})(?:,(\d{1,2}))?` against the characters after the
color marker.  Returns `none` when no digit follows (the `*len > 0` test
fails), otherwise `some (len, fg, bg?)` where `len` is the matched length,
`fg` the foreground value and `bg?` the optional background value. -/
def parseColors (s : List Char) : Option (Nat × Nat × Option Nat) :=
  match takeDigits2 s with
  | ([], _) => none
  | (ds, rest) =>
    match rest with
    | ',' :: rest2 =>
      match takeDigits2 rest2 with
      | ([], _) => some (ds.length, digitsToNat ds, none)
      | (bs, _) => some (ds.length + 1 + bs.length, digitsToNat ds, some (digitsToNat bs))
    | _ => some (ds.length, digitsToNat ds, none)

/-- Whether the first remaining character is a decimal digit (false at end
of input); `parseColors` matches exactly when this is true. -/
def headIsDigit : List Char → Bool
  | [] => false
  | c :: _ => c.isDigit

/-- `IrcTextFormat::toPlainText`: left-to-right removal of the recognised
control bytes; a color marker additionally consumes the digit group(s)
matched by `parseColors`. -/
def toPlainText : List Char → List Char
  | [] => []
  | c :: rest =>
    if isStripControl c then
      toPlainText rest
    else if c = '\x03' then
      match parseColors rest with
      | some (len, _, _) => toPlainText (rest.drop len)
      | none => toPlainText rest
    else
      c :: toPlainText rest
termination_by s => s.length
decreasing_by
  all_goals simp [List.length_drop]
  all_goals omega

/-- The deletion trace of `toPlainText`'s single pass: the same
left-to-right scan, but recording the input cut into consecutive chunks,
each tagged `true` when the scan keeps it (`++pos`) and `false` when it
deletes it (`remove(pos, …)`).  A deleted chunk is one control byte, a bare
color marker, or a color marker together with the digit group `parseColors`
matched right after it. -/
def toPlainTextChunks : List Char → List (Bool × List Char)
  | [] => []
  | c :: rest =>
    if isStripControl c then
      (false, [c]) :: toPlainTextChunks rest
    else if c = '\x03' then
      match parseColors rest with
      | some (len, _, _) =>
        (false, '\x03' :: rest.take len) :: toPlainTextChunks (rest.drop len)
      | none => (false, ['\x03']) :: toPlainTextChunks rest
    else
      (true, [c]) :: toPlainTextChunks rest
termination_by s => s.length
decreasing_by
  all_goals simp [List.length_drop]
  all_goals omega

/-- `QChar::isSpace`: the ASCII whitespace range `09`–`0D`, space, `85`,
and the Unicode separator characters (categories Zs, Zl, Zp). -/
def isSpaceChar (c : Char) : Bool :=
  (0x9 ≤ c.toNat && c.toNat ≤ 0xD) || c.toNat = 0x20 || c.toNat = 0x85 || c.toNat = 0xA0 ||
  c.toNat = 0x1680 || (0x2000 ≤ c.toNat && c.toNat ≤ 0x200A) || c.toNat = 0x2028 ||
  c.toNat = 0x2029 || c.toNat = 0x202F || c.toNat = 0x205F || c.toNat = 0x3000

/-- The bit set of currently active style attributes (`state` in `toHtml`;
one field per bit of the C++ enum). -/
structure FormatState where
  bold : Bool
  italic : Bool
  lineThrough : Bool
  underline : Bool
  inverse : Bool
  deriving DecidableEq

/-- `state = None`: all attribute bits clear. -/
def noFormat : FormatState := ⟨false, false, false, false, false⟩

/-- The number of attribute bits currently set: for inputs made of style
toggles and literal text this is exactly the number of currently-open
elements (`depth`). -/
def openCount (fs : FormatState) : Int :=
  (if fs.bold then 1 else 0) + (if fs.italic then 1 else 0) +
    (if fs.lineThrough then 1 else 0) + (if fs.underline then 1 else 0) +
    (if fs.inverse then 1 else 0)

/-- `IrcTextFormat::SpanFormat`: span-elements with style-attributes
(`SpanStyle`) or with class-attributes (`SpanClass`). -/
inductive SpanFormat where
  | spanStyle
  | spanClass
  deriving DecidableEq

/-- One character of the HTML conversion's output string, tagged with its
provenance: `lit` for a character copied verbatim from the (already
`&lt;`-escaped) input text, `markup` for a character of a generated span or
closing element.  The tag is a ghost annotation: erasing it with
`OutChar.char` gives exactly the string the C++ code builds. -/
inductive OutChar where
  | lit (c : Char)
  | markup (c : Char)
  deriving DecidableEq

/-- Erase the provenance tag. -/
def OutChar.char : OutChar → Char
  | .lit c => c
  | .markup c => c

/-- State of `toHtml`'s scan loop.  `rout` is the output built so far, in
reverse order (its head is the character just before the cursor, i.e.
`processed.at(pos - 1)`); `fmt` is the attribute bit set, `depth` the span
depth counter (a C++ `int`, hence `Int`), `potentialUrl` the sticky URL
heuristic flag. -/
structure ScanState where
  rout : List OutChar
  fmt : FormatState
  depth : Int
  potentialUrl : Bool
  deriving DecidableEq

def closeSpan : List Char := "</span>".toList

def boldOpen : SpanFormat → List Char
  | .spanStyle => "<span style='font-weight: bold'>".toList
  | .spanClass => "<span class='bold'>".toList

def italicOpen : SpanFormat → List Char
  | .spanStyle => "<span style='font-style: italic'>".toList
  | .spanClass => "<span class='italic'>".toList

def lineThroughOpen : SpanFormat → List Char
  | .spanStyle => "<span style='text-decoration: line-through'>".toList
  | .spanClass => "<span class='line-through'>".toList

def underlineOpen : SpanFormat → List Char
  | .spanStyle => "<span style='text-decoration: underline'>".toList
  | .spanClass => "<span class='underline'>".toList

def inverseOpen : SpanFormat → List Char
  | .spanStyle => "<span style='text-decoration: inverse'>".toList
  | .spanClass => "<span class='inverse'>".toList

/-- `IrcPalette::colorName(index, fallback)`: the mapped color string, or the
fallback when the index is unmapped. -/
def colorName (pal : Nat → Option (List Char)) (i : Nat) (fallback : List Char) : List Char :=
  (pal i).getD fallback

/-- The opening element emitted for a color directive: foreground resolved
with fallback "black", background (when present) with fallback
"transparent"; styles joined with "; ", classes with " " and the background
class suffixed "-background". -/
def colorOpen (f : SpanFormat) (pal : Nat → Option (List Char)) (fg : Nat) (bg : Option Nat) :
    List Char :=
  match f with
  | .spanStyle =>
    "<span style='color: ".toList ++ colorName pal fg "black".toList ++
      (match bg with
       | some b => "; background-color: ".toList ++ colorName pal b "transparent".toList
       | none => []) ++ "'>".toList
  | .spanClass =>
    "<span class='".toList ++ colorName pal fg "black".toList ++
      (match bg with
       | some b => [' '] ++ colorName pal b "transparent".toList ++ "-background".toList
       | none => []) ++ "'>".toList

/-- Append a replacement string to the reversed output, tagged as markup
(`processed.replace(pos, n, replacement); pos += replacement.length()`). -/
def pushMarkup (r : List Char) (out : List OutChar) : List OutChar :=
  (r.map OutChar.markup).reverse ++ out

/-- `QString("</span>").repeated(n)`. -/
def repeatedClose (n : Nat) : List Char :=
  (List.replicate n closeSpan).flatten

/-- Whether a (remaining input) position holds a non-space character; false
at the boundary (`pos < processed.length() - 1` fails at the end). -/
def headNonSpace : List Char → Bool
  | [] => false
  | c :: _ => !isSpaceChar c

/-- Whether the character just emitted is non-space; false at position 0
(`pos > 0` fails at the start). -/
def routHeadNonSpace : List OutChar → Bool
  | [] => false
  | c :: _ => !isSpaceChar c.char

/-- The scan loop of `IrcTextFormat::toHtml`, driven left-to-right over the
remaining input.  Each case mirrors one `case` label of the C++ `switch`;
replacements are emitted and skipped, literal characters are copied, and the
color case additionally consumes the digits matched by `parseColors`. -/
def scanLoop (f : SpanFormat) (pal : Nat → Option (List Char)) :
    List Char → ScanState → ScanState
  | [], st => st
  | c :: rest, st =>
    if c = '\x02' then
      if st.fmt.bold then
        scanLoop f pal rest
          ⟨pushMarkup closeSpan st.rout, { st.fmt with bold := false }, st.depth - 1,
            st.potentialUrl⟩
      else
        scanLoop f pal rest
          ⟨pushMarkup (boldOpen f) st.rout, { st.fmt with bold := true }, st.depth + 1,
            st.potentialUrl⟩
    else if c = '\x03' then
      match parseColors rest with
      | some (len, fg, bg) =>
        scanLoop f pal (rest.drop len)
          ⟨pushMarkup (colorOpen f pal fg bg) st.rout, st.fmt, st.depth + 1, st.potentialUrl⟩
      | none =>
        scanLoop f pal rest
          ⟨pushMarkup closeSpan st.rout, st.fmt, st.depth - 1, st.potentialUrl⟩
    else if c = '\x1D' then
      if st.fmt.italic then
        scanLoop f pal rest
          ⟨pushMarkup closeSpan st.rout, { st.fmt with italic := false }, st.depth - 1,
            st.potentialUrl⟩
      else
        scanLoop f pal rest
          ⟨pushMarkup (italicOpen f) st.rout, { st.fmt with italic := true }, st.depth + 1,
            st.potentialUrl⟩
    else if c = '\x13' then
      if st.fmt.lineThrough then
        scanLoop f pal rest
          ⟨pushMarkup closeSpan st.rout, { st.fmt with lineThrough := false }, st.depth - 1,
            st.potentialUrl⟩
      else
        scanLoop f pal rest
          ⟨pushMarkup (lineThroughOpen f) st.rout, { st.fmt with lineThrough := true },
            st.depth + 1, st.potentialUrl⟩
    else if c = '\x15' || c = '\x1F' then
      if st.fmt.underline then
        scanLoop f pal rest
          ⟨pushMarkup closeSpan st.rout, { st.fmt with underline := false }, st.depth - 1,
            st.potentialUrl⟩
      else
        scanLoop f pal rest
          ⟨pushMarkup (underlineOpen f) st.rout, { st.fmt with underline := true },
            st.depth + 1, st.potentialUrl⟩
    else if c = '\x16' then
      if st.fmt.inverse then
        scanLoop f pal rest
          ⟨pushMarkup closeSpan st.rout, { st.fmt with inverse := false }, st.depth - 1,
            st.potentialUrl⟩
      else
        scanLoop f pal rest
          ⟨pushMarkup (inverseOpen f) st.rout, { st.fmt with inverse := true },
            st.depth + 1, st.potentialUrl⟩
    else if c = '\x0F' then
      if st.depth > 0 then
        scanLoop f pal rest
          ⟨pushMarkup (repeatedClose st.depth.toNat) st.rout, noFormat, 0, st.potentialUrl⟩
      else
        scanLoop f pal rest ⟨st.rout, noFormat, 0, st.potentialUrl⟩
    else if c = '.' || c = '/' || c = ':' then
      scanLoop f pal rest
        ⟨OutChar.lit c :: st.rout, st.fmt, st.depth,
          st.potentialUrl || (routHeadNonSpace st.rout && headNonSpace rest)⟩
    else
      scanLoop f pal rest ⟨OutChar.lit c :: st.rout, st.fmt, st.depth, st.potentialUrl⟩
termination_by s _ => s.length
decreasing_by
  all_goals simp [List.length_drop]
  all_goals omega

/-- The pre-scan escaping step of `toHtml`: each literal `<` becomes
`&lt;`; every other character passes through unchanged. -/
def escapeLt : List Char → List Char
  | [] => []
  | c :: rest => (if c = '<' then "&lt;".toList else [c]) ++ escapeLt rest

/-- Initial scan state: empty output, no attributes, depth 0, flag clear. -/
def initState : ScanState := ⟨[], noFormat, 0, false⟩

/-- The same scan state with the potential-URL flag overridden (used to
express that the flag is sticky and influences nothing else). -/
def setFlag (st : ScanState) (b : Bool) : ScanState :=
  ⟨st.rout, st.fmt, st.depth, b⟩

/-- The whole control-code pass of `toHtml`: escape `<`, then scan. -/
def scanText (f : SpanFormat) (pal : Nat → Option (List Char)) (text : List Char) : ScanState :=
  scanLoop f pal (escapeLt text) initState

/-- The output string held by a scan state (reverse the accumulator and
erase the ghost provenance tags). -/
def rendered (st : ScanState) : List Char :=
  st.rout.reverse.map OutChar.char

/-- One match reported by the pattern engine (`QRegExp::indexIn` plus the
two capture groups `parseLinks` reads): position, matched length, `cap(1)`
and `cap(2)`. -/
structure RegexMatch where
  pos : Nat
  len : Nat
  cap1 : List Char
  cap2 : List Char
  deriving DecidableEq

/-- The abstracted pattern engine: given the current string and the start
position, report the next match at or after it, or `none`. -/
abbrev Matcher : Type := List Char → Nat → Option RegexMatch

/-- `QString::startsWith(pat, Qt::CaseInsensitive)` (first argument is the
pattern), with ASCII case folding. -/
def startsWithCI : List Char → List Char → Bool
  | [], _ => true
  | _ :: _, [] => false
  | p :: ps, c :: cs => (c.toLower = p.toLower) && startsWithCI ps cs

/-- The scheme chosen by `parseLinks` for one match: when the scheme capture
group `cap(2)` is empty, `mailto:` if `cap(1)` contains `@`, else `ftp://`
if `cap(1)` starts (case-insensitively) with `ftp.`, else `http://`; when
`cap(2)` is non-empty, nothing is prepended. -/
def linkProtocol (cap1 cap2 : List Char) : List Char :=
  if cap2.isEmpty then
    if cap1.contains '@' then "mailto:".toList
    else if startsWithCI "ftp.".toList cap1 then "ftp://".toList
    else "http://".toList
  else []

/-- The characters `generateLink` excludes from percent-encoding. -/
def excludeChars : List Char := ":/?@%#=+&,".toList

/-- The bytes `QUrl::toPercentEncoding` never encodes regardless of the
exclude set: ALPHA / DIGIT / `-` / `.` / `_` / `~`. -/
def isUnreservedByte (n : Nat) : Bool :=
  (0x41 ≤ n && n ≤ 0x5A) || (0x61 ≤ n && n ≤ 0x7A) || (0x30 ≤ n && n ≤ 0x39) ||
  n = 0x2D || n = 0x2E || n = 0x5F || n = 0x7E

def hexDigitUpper (n : Nat) : Char :=
  if n < 10 then Char.ofNat (0x30 + n) else Char.ofNat (0x37 + n)

/-- UTF-8 encoding of one code point, as a list of byte values. -/
def utf8Bytes (n : Nat) : List Nat :=
  if n < 0x80 then [n]
  else if n < 0x800 then [0xC0 + n / 64, 0x80 + n % 64]
  else if n < 0x10000 then [0xE0 + n / 4096, 0x80 + n / 64 % 64, 0x80 + n % 64]
  else [0xF0 + n / 262144, 0x80 + n / 4096 % 64, 0x80 + n / 64 % 64, 0x80 + n % 64]

def percentByte (b : Nat) : List Char :=
  ['%', hexDigitUpper (b / 16), hexDigitUpper (b % 16)]

/-- `QUrl::toPercentEncoding(href, ":/?@%#=+&,")`: unreserved bytes and the
excluded characters pass through; every other byte of the UTF-8 encoding
becomes `%HH` with uppercase hex digits. -/
def toPercentEncoding : List Char → List Char
  | [] => []
  | c :: rest =>
    (if isUnreservedByte c.toNat || excludeChars.contains c then [c]
     else ((utf8Bytes c.toNat).map percentByte).flatten) ++ toPercentEncoding rest

/-- `generateLink(protocol, href)`: the anchor markup, with the href
percent-encoded and the visible text left as-is. -/
def generateLink (protocol href : List Char) : List Char :=
  "<a href='".toList ++ protocol ++ toPercentEncoding href ++ "'>".toList ++ href ++
    "</a>".toList

/-- `parseLinks(message, pattern)`: repeatedly find the next match at or
after `pos`, splice in the generated anchor, and resume immediately after
it.  The C++ `while` loop's termination is not structural (the string grows
while `pos` advances), so the loop is paced by an explicit fuel counter;
every claim below quantifies over the fuel or discharges it concretely. -/
def parseLinks (matcher : Matcher) : Nat → List Char → Nat → List Char
  | 0, processed, _ => processed
  | fuel + 1, processed, pos =>
    match matcher processed pos with
    | none => processed
    | some m =>
      let href := (processed.drop m.pos).take m.len
      let link := generateLink (linkProtocol m.cap1 m.cap2) href
      parseLinks matcher fuel
        (processed.take m.pos ++ link ++ processed.drop (m.pos + m.len))
        (m.pos + link.length)

/-- `IrcTextFormat::toHtml`: escape `<`, scan the control codes, and — iff
the potential-URL flag was set and the URL pattern is non-empty — run the
link detector over the fully substituted string. -/
def toHtml (f : SpanFormat) (pal : Nat → Option (List Char)) (urlPattern : List Char)
    (matcher : Matcher) (fuel : Nat) (text : List Char) : List Char :=
  let st := scanText f pal text
  let processed := rendered st
  if st.potentialUrl && !urlPattern.isEmpty then parseLinks matcher fuel processed 0
  else processed

/-- A `QRegExp` constructed from a pattern that fails to compile is invalid;
its `indexIn` never reports a match.  This matcher models running
`parseLinks` with such a pattern. -/
def neverMatch : Matcher := fun _ _ => none

/-- A channel member as `IrcUserModel::lessThan` sees it: the prefix string
(`IrcUser::prefix`) and the nick name. -/
structure IrcUser where
  prefixStr : List Char
  name : List Char
  deriving DecidableEq

/-- `QStringList::indexOf` on the network's one-symbol prefix list: the
position of the symbol, or `-1` when absent. -/
def indexOfChar (l : List Char) (c : Char) : Int :=
  match l.findIdx? (· = c) with
  | some i => (i : Int)
  | none => -1

/-- `i1`/`i2` of `IrcUserModel::lessThan`: the priority of the member's
first prefix symbol, `-1` for a prefix-less member or a symbol not in the
list. -/
def prefixIndex (symbols : List Char) (u : IrcUser) : Int :=
  match u.prefixStr with
  | [] => -1
  | c :: _ => indexOfChar symbols c

/-- `QString::compare(n1, n2, Qt::CaseInsensitive)` (sign only), with ASCII
case folding. -/
def compareCI : List Char → List Char → Ordering
  | [], [] => .eq
  | [], _ :: _ => .lt
  | _ :: _, [] => .gt
  | a :: as, b :: bs =>
    if a.toLower.toNat < b.toLower.toNat then .lt
    else if b.toLower.toNat < a.toLower.toNat then .gt
    else compareCI as bs

/-- `IrcUserModel::lessThan`: rank by prefix precedence, fall back to
case-insensitive name comparison. -/
def lessThan (symbols : List Char) (one another : IrcUser) : Bool :=
  let i1 := prefixIndex symbols one
  let i2 := prefixIndex symbols another
  if 0 ≤ i1 && i2 < 0 then true
  else if i1 < 0 && 0 ≤ i2 then false
  else if 0 ≤ i1 && 0 ≤ i2 && i1 ≠ i2 then i1 < i2
  else compareCI one.name another.name = .lt

/-- `QList::value(i)`: the element at `i`, or a default-constructed value —
for a pointer list, the null pointer, modelled as `none` — when `i` is out
of range. -/
def listValue {α : Type} (l : List α) (i : Int) : Option α :=
  if 0 ≤ i then l.get? i.toNat else none

/-- `IrcUserModel::get(index)`: `userList.value(index)`.  The method is
`const`; the model state (the user list) is returned unchanged alongside
the result. -/
def userModelGet (userList : List IrcUser) (i : Int) : Option IrcUser × List IrcUser :=
  (listValue userList i, userList)

/-! ### toPlainText: characters of the output -/

/-- Every character of a `toPlainText` output is neither a strippable
control byte nor the color marker: the stripper deletes all of them. -/
theorem toPlainText_chars (s : List Char) :
    ∀ c ∈ toPlainText s, isStripControl c = false ∧ c ≠ '\x03' := by
  induction s using toPlainText.induct with
  | case1 => intro c hc; simp [toPlainText] at hc
  | case2 c rest h ih =>
    intro x hx
    simp only [toPlainText, h, if_true] at hx
    exact ih x hx
  | case3 rest len fg bg h hns ih =>
    intro x hx
    simp only [toPlainText, hns, if_false, if_pos rfl, h] at hx
    exact ih x hx
  | case4 rest h hns ih =>
    intro x hx
    simp only [toPlainText, hns, if_false, if_pos rfl, h] at hx
    exact ih x hx
  | case5 c rest h1 h2 ih =>
    intro x hx
    simp only [toPlainText, if_neg h1, if_neg h2] at hx
    rcases List.mem_cons.mp hx with hx | hx
    · subst hx
      exact ⟨by simpa using h1, h2⟩
    · exact ih x hx

/-- A string free of control bytes and color markers is a fixed point of
`toPlainText`. -/
theorem toPlainText_id_of_clean (s : List Char)
    (h : ∀ c ∈ s, isStripControl c = false ∧ c ≠ '\x03') : toPlainText s = s := by
  induction s with
  | nil => simp [toPlainText]
  | cons c rest ih =>
    have hc := h c (List.mem_cons_self c rest)
    simp only [toPlainText]
    rw [if_neg (by simp [hc.1]), if_neg hc.2]
    exact congrArg (List.cons c) (ih fun x hx => h x (List.mem_cons_of_mem c hx))

/-- The `toPlainText` output is a subsequence of the input. -/
theorem toPlainText_sublist (s : List Char) : (toPlainText s).Sublist s := by
  induction s using toPlainText.induct with
  | case1 => simp [toPlainText]
  | case2 c rest h ih =>
    simp only [toPlainText, h, if_true]
    exact ih.cons c
  | case3 rest len fg bg h hns ih =>
    simp only [toPlainText, hns, if_false, if_pos rfl, h]
    exact (ih.trans (List.drop_sublist len rest)).cons '\x03'
  | case4 rest h hns ih =>
    simp only [toPlainText, hns, if_false, if_pos rfl, h]
    exact ih.cons '\x03'
  | case5 c rest h1 h2 ih =>
    simp only [toPlainText, if_neg h1, if_neg h2]
    exact ih.cons₂ c

/-- C1: for every input string `x`, `toPlainText (toPlainText x) =
toPlainText x` — the stripper is idempotent. -/
theorem toPlainText_idempotent (s : List Char) :
    toPlainText (toPlainText s) = toPlainText s :=
  toPlainText_id_of_clean (toPlainText s) (toPlainText_chars s)

/-- `takeDigits2` splits its input: digits taken plus remainder re-form it. -/
theorem takeDigits2_append (s : List Char) : (takeDigits2 s).1 ++ (takeDigits2 s).2 = s := by
  cases s with
  | nil => rfl
  | cons c rest =>
    cases rest with
    | nil => by_cases hd : c.isDigit <;> simp [takeDigits2, hd]
    | cons c2 rest2 =>
      by_cases hd : c.isDigit <;> by_cases hd2 : c2.isDigit <;> simp [takeDigits2, hd, hd2]

/-- The length `parseColors` reports never exceeds the input length. -/
theorem parseColors_le (s : List Char) (len fg : Nat) (bg : Option Nat)
    (h : parseColors s = some (len, fg, bg)) : len ≤ s.length := by
  have hsplit := takeDigits2_append s
  unfold parseColors at h
  rcases hds : takeDigits2 s with ⟨ds, rest⟩
  rw [hds] at h hsplit
  have hlen : ds.length + rest.length = s.length := by
    simpa using congrArg List.length hsplit
  cases ds with
  | nil => simp at h
  | cons d ds' =>
    cases rest with
    | nil =>
      simp at h hlen
      omega
    | cons r rest' =>
      by_cases hr : r = ','
      · subst hr
        rcases hbs : takeDigits2 rest' with ⟨bs, r2⟩
        have hlen2 : bs.length + r2.length = rest'.length := by
          have := takeDigits2_append rest'
          rw [hbs] at this
          simpa using congrArg List.length this
        cases bs with
        | nil =>
          simp [hbs] at h
          simp at hlen
          omega
        | cons b bs' =>
          simp [hbs] at h hlen2
          simp at hlen
          omega
      · simp [hr] at h
        simp at hlen
        omega

/-- The chunks of the deletion trace concatenate back to the input: the
pass neither inserts, reorders nor alters any character. -/
theorem toPlainTextChunks_flatten (s : List Char) :
    ((toPlainTextChunks s).map Prod.snd).flatten = s := by
  induction s using toPlainTextChunks.induct with
  | case1 => simp [toPlainTextChunks]
  | case2 c rest h ih => simp [toPlainTextChunks, h, ih]
  | case3 rest len fg bg h hns ih =>
    simp [toPlainTextChunks, hns, h, ih, List.take_append_drop]
  | case4 rest h hns ih => simp [toPlainTextChunks, hns, h, ih]
  | case5 c rest h1 h2 ih => simp [toPlainTextChunks, h1, h2, ih]

/-- `toPlainText` returns exactly the concatenation of the kept chunks of
the deletion trace: what is deleted is the `false`-tagged chunks, nothing
else. -/
theorem toPlainText_eq_kept (s : List Char) :
    toPlainText s = (((toPlainTextChunks s).filter Prod.fst).map Prod.snd).flatten := by
  induction s using toPlainTextChunks.induct with
  | case1 => simp [toPlainText, toPlainTextChunks]
  | case2 c rest h ih => simp [toPlainText, toPlainTextChunks, h, ih]
  | case3 rest len fg bg h hns ih =>
    simp [toPlainText, toPlainTextChunks, hns, h, ih]
  | case4 rest h hns ih => simp [toPlainText, toPlainTextChunks, hns, h, ih]
  | case5 c rest h1 h2 ih => simp [toPlainText, toPlainTextChunks, h1, h2, ih]

/-- Shape of every chunk of the deletion trace: a kept chunk is one
character that is neither a strippable control byte nor the color marker; a
deleted chunk is a strippable control byte, a bare color marker after which
`parseColors` matches nothing (zero digits consumed), or a color marker
together with exactly the digit group `parseColors` matches immediately
after it in the remaining input. -/
theorem toPlainTextChunks_shape (s : List Char) :
    ∀ pre ch post, toPlainTextChunks s = pre ++ ch :: post →
      (ch.1 = true → ∃ c, ch.2 = [c] ∧ isStripControl c = false ∧ c ≠ '\x03') ∧
      (ch.1 = false →
        (∃ c, ch.2 = [c] ∧ isStripControl c = true) ∨
        (ch.2 = ['\x03'] ∧ parseColors ((post.map Prod.snd).flatten) = none) ∨
        (∃ ds fg bg, ch.2 = '\x03' :: ds ∧
          parseColors (ds ++ (post.map Prod.snd).flatten) = some (ds.length, fg, bg))) := by
  induction s using toPlainTextChunks.induct with
  | case1 =>
    intro pre ch post hsplit
    simp [toPlainTextChunks] at hsplit
  | case2 c rest h ih =>
    intro pre ch post hsplit
    have hstep : toPlainTextChunks (c :: rest) = (false, [c]) :: toPlainTextChunks rest := by
      simp [toPlainTextChunks, h]
    rw [hstep] at hsplit
    cases pre with
    | nil =>
      simp only [List.nil_append, List.cons.injEq] at hsplit
      obtain ⟨hch, hpost⟩ := hsplit
      constructor
      · intro ht
        rw [← hch] at ht
        simp at ht
      · intro _
        exact Or.inl ⟨c, by rw [← hch], h⟩
    | cons p0 pre' =>
      simp only [List.cons_append, List.cons.injEq] at hsplit
      exact ih pre' ch post hsplit.2
  | case3 rest len fg bg h hns ih =>
    intro pre ch post hsplit
    have hstep : toPlainTextChunks ('\x03' :: rest) =
        (false, '\x03' :: rest.take len) :: toPlainTextChunks (rest.drop len) := by
      simp [toPlainTextChunks, hns, h]
    rw [hstep] at hsplit
    cases pre with
    | nil =>
      simp only [List.nil_append, List.cons.injEq] at hsplit
      obtain ⟨hch, hpost⟩ := hsplit
      constructor
      · intro ht
        rw [← hch] at ht
        simp at ht
      · intro _
        refine Or.inr (Or.inr ⟨rest.take len, fg, bg, by rw [← hch], ?_⟩)
        rw [← hpost, toPlainTextChunks_flatten, List.take_append_drop, List.length_take,
          Nat.min_eq_left (parseColors_le rest len fg bg h)]
        exact h
    | cons p0 pre' =>
      simp only [List.cons_append, List.cons.injEq] at hsplit
      exact ih pre' ch post hsplit.2
  | case4 rest h hns ih =>
    intro pre ch post hsplit
    have hstep : toPlainTextChunks ('\x03' :: rest) =
        (false, ['\x03']) :: toPlainTextChunks rest := by
      simp [toPlainTextChunks, hns, h]
    rw [hstep] at hsplit
    cases pre with
    | nil =>
      simp only [List.nil_append, List.cons.injEq] at hsplit
      obtain ⟨hch, hpost⟩ := hsplit
      constructor
      · intro ht
        rw [← hch] at ht
        simp at ht
      · intro _
        refine Or.inr (Or.inl ⟨by rw [← hch], ?_⟩)
        rw [← hpost, toPlainTextChunks_flatten]
        exact h
    | cons p0 pre' =>
      simp only [List.cons_append, List.cons.injEq] at hsplit
      exact ih pre' ch post hsplit.2
  | case5 c rest h1 h2 ih =>
    intro pre ch post hsplit
    have hstep : toPlainTextChunks (c :: rest) = (true, [c]) :: toPlainTextChunks rest := by
      simp [toPlainTextChunks, h1, h2]
    rw [hstep] at hsplit
    cases pre with
    | nil =>
      simp only [List.nil_append, List.cons.injEq] at hsplit
      obtain ⟨hch, hpost⟩ := hsplit
      constructor
      · intro _
        exact ⟨c, by rw [← hch], by simpa using h1, h2⟩
      · intro hf
        rw [← hch] at hf
        simp at hf
    | cons p0 pre' =>
      simp only [List.cons_append, List.cons.injEq] at hsplit
      exact ih pre' ch post hsplit.2

/-- C9: the output of `toPlainText` is a subsequence of the input — every
output character occurs in the input in the same relative order, and no
character is inserted or altered; moreover the pass cuts the input into
consecutive chunks whose concatenation is the input, the output is exactly
the concatenation of the kept chunks, every kept chunk is one character
that is neither a recognised control byte nor the color marker, and every
deleted chunk is a recognised control byte, a bare color marker (zero
digits consumed), or a color marker plus exactly the digit group
`parseColors` matches immediately after it — so the only characters deleted
are recognised control bytes and the digit group(s) following a color
marker. -/
theorem toPlainText_subsequence (s : List Char) :
    (toPlainText s).Sublist s ∧
    ((toPlainTextChunks s).map Prod.snd).flatten = s ∧
    toPlainText s = (((toPlainTextChunks s).filter Prod.fst).map Prod.snd).flatten ∧
    (∀ pre ch post, toPlainTextChunks s = pre ++ ch :: post →
      (ch.1 = true → ∃ c, ch.2 = [c] ∧ isStripControl c = false ∧ c ≠ '\x03') ∧
      (ch.1 = false →
        (∃ c, ch.2 = [c] ∧ isStripControl c = true) ∨
        (ch.2 = ['\x03'] ∧ parseColors ((post.map Prod.snd).flatten) = none) ∨
        (∃ ds fg bg, ch.2 = '\x03' :: ds ∧
          parseColors (ds ++ (post.map Prod.snd).flatten) = some (ds.length, fg, bg)))) :=
  ⟨toPlainText_sublist s, toPlainTextChunks_flatten s, toPlainText_eq_kept s,
    toPlainTextChunks_shape s⟩

/-- Witness for C9 at the concrete input "\x02a": the deleted chunk is the
bold control byte. -/
theorem toPlainText_subsequence_witness :
    toPlainTextChunks ['\x02', 'a'] = [] ++ (false, ['\x02']) :: [(true, ['a'])] ∧
    (((false, ['\x02']) : Bool × List Char).1 = false →
      (∃ c, ((false, ['\x02']) : Bool × List Char).2 = [c] ∧ isStripControl c = true) ∨
      (((false, ['\x02']) : Bool × List Char).2 = ['\x03'] ∧
        parseColors (([(true, ['a'])].map Prod.snd).flatten) = none) ∨
      (∃ ds fg bg, ((false, ['\x02']) : Bool × List Char).2 = '\x03' :: ds ∧
        parseColors (ds ++ ([(true, ['a'])].map Prod.snd).flatten) =
          some (ds.length, fg, bg))) :=
  have h : toPlainTextChunks ['\x02', 'a'] = [] ++ (false, ['\x02']) :: [(true, ['a'])] := by
    simp [toPlainTextChunks, isStripControl]
  ⟨h, ((toPlainText_subsequence ['\x02', 'a']).2.2.2 [] (false, ['\x02']) [(true, ['a'])] h).2⟩

/-! ### Malformed color markers -/

/-- `parseColors` fails exactly when no digit follows the marker. -/
theorem parseColors_none_of_no_digit (rest : List Char) (h : headIsDigit rest = false) :
    parseColors rest = none := by
  cases rest with
  | nil => rfl
  | cons c t =>
    simp only [headIsDigit] at h
    simp [parseColors, takeDigits2, h]

/-- C3: when the color marker is followed by a non-digit (or by the end of
input), `parseColors` consumes zero digits; `toPlainText` deletes exactly
the marker byte, leaving the rest of the input — in particular the
following character — intact; and the `toHtml` scanner emits exactly one
closing element and decrements the depth counter by one, then continues
with the rest unconsumed. -/
theorem toHtml_malformed_color_marker (f : SpanFormat) (pal : Nat → Option (List Char))
    (st : ScanState) (rest : List Char) (h : headIsDigit rest = false) :
    parseColors rest = none ∧
    toPlainText ('\x03' :: rest) = toPlainText rest ∧
    scanLoop f pal ('\x03' :: rest) st =
      scanLoop f pal rest ⟨pushMarkup closeSpan st.rout, st.fmt, st.depth - 1, st.potentialUrl⟩ := by
  have hp := parseColors_none_of_no_digit rest h
  refine ⟨hp, ?_, ?_⟩
  · simp [toPlainText, hp, isStripControl]
  · simp [scanLoop, hp]

/-- Witness for C3 at the concrete input "\x03a". -/
theorem toHtml_malformed_color_marker_witness :
    headIsDigit ['a'] = false ∧
    (parseColors ['a'] = none ∧
      toPlainText ['\x03', 'a'] = toPlainText ['a'] ∧
      scanLoop SpanFormat.spanStyle (fun _ => none) ['\x03', 'a'] initState =
        scanLoop SpanFormat.spanStyle (fun _ => none) ['a']
          ⟨pushMarkup closeSpan initState.rout, initState.fmt, initState.depth - 1,
            initState.potentialUrl⟩) :=
  ⟨by decide,
   toHtml_malformed_color_marker SpanFormat.spanStyle (fun _ => none) initState ['a'] (by decide)⟩

/-! ### The span-depth invariant -/

theorem openCount_nonneg (fs : FormatState) : 0 ≤ openCount fs := by
  unfold openCount
  split_ifs <;> omega

/-- On input free of color markers, the scan preserves `depth = openCount
fmt`: each style toggle moves both together, and a reset zeroes both. -/
theorem scanLoop_depth_eq_openCount (f : SpanFormat) (pal : Nat → Option (List Char)) :
    ∀ (rem : List Char) (st : ScanState), (∀ c ∈ rem, c ≠ '\x03') →
      st.depth = openCount st.fmt →
      (scanLoop f pal rem st).depth = openCount (scanLoop f pal rem st).fmt := by
  intro rem st
  induction rem, st using scanLoop.induct f pal with
  | case1 st => intro _ hinv; simpa [scanLoop] using hinv
  | case2 rest st hb ih =>
    intro h hinv
    simp only [scanLoop, hb]
    simp only [if_true]
    refine ih (fun c hc => h c (List.mem_cons_of_mem _ hc)) ?_
    simp [openCount, hb] at hinv ⊢
    split_ifs at hinv ⊢ <;> omega
  | case3 rest st hb ih =>
    intro h hinv
    simp [scanLoop, hb]
    refine ih (fun c hc => h c (List.mem_cons_of_mem _ hc)) ?_
    simp [openCount, hb] at hinv ⊢
    split_ifs at hinv ⊢ <;> omega
  | case4 rest st len fg bg hpc hne ih =>
    intro h _
    exact absurd rfl (h '\x03' (List.mem_cons_self _ _))
  | case5 rest st hpc hne ih =>
    intro h _
    exact absurd rfl (h '\x03' (List.mem_cons_self _ _))
  | case6 rest st hb h2 h3 ih =>
    intro h hinv
    simp [scanLoop, hb]
    refine ih (fun c hc => h c (List.mem_cons_of_mem _ hc)) ?_
    simp [openCount, hb] at hinv ⊢
    split_ifs at hinv ⊢ <;> omega
  | case7 rest st hb h2 h3 ih =>
    intro h hinv
    simp [scanLoop, hb]
    refine ih (fun c hc => h c (List.mem_cons_of_mem _ hc)) ?_
    simp [openCount, hb] at hinv ⊢
    split_ifs at hinv ⊢ <;> omega
  | case8 rest st hb h2 h3 h4 ih =>
    intro h hinv
    simp [scanLoop, hb]
    refine ih (fun c hc => h c (List.mem_cons_of_mem _ hc)) ?_
    simp [openCount, hb] at hinv ⊢
    split_ifs at hinv ⊢ <;> omega
  | case9 rest st hb h2 h3 h4 ih =>
    intro h hinv
    simp [scanLoop, hb]
    refine ih (fun c hc => h c (List.mem_cons_of_mem _ hc)) ?_
    simp [openCount, hb] at hinv ⊢
    split_ifs at hinv ⊢ <;> omega
  | case10 c rest st h2 h3 h4 h5 hul hb ih =>
    intro h hinv
    simp [scanLoop, h2, h3, h4, h5, hul, hb]
    refine ih (fun x hx => h x (List.mem_cons_of_mem _ hx)) ?_
    simp [openCount, hb] at hinv ⊢
    split_ifs at hinv ⊢ <;> omega
  | case11 c rest st h2 h3 h4 h5 hul hb ih =>
    intro h hinv
    simp [scanLoop, h2, h3, h4, h5, hul, hb]
    refine ih (fun x hx => h x (List.mem_cons_of_mem _ hx)) ?_
    simp [openCount, hb] at hinv ⊢
    split_ifs at hinv ⊢ <;> omega
  | case12 rest st hb h2 h3 h4 h5 h6 ih =>
    intro h hinv
    simp [scanLoop, hb]
    refine ih (fun c hc => h c (List.mem_cons_of_mem _ hc)) ?_
    simp [openCount, hb] at hinv ⊢
    split_ifs at hinv ⊢ <;> omega
  | case13 rest st hb h2 h3 h4 h5 h6 ih =>
    intro h hinv
    simp [scanLoop, hb]
    refine ih (fun c hc => h c (List.mem_cons_of_mem _ hc)) ?_
    simp [openCount, hb] at hinv ⊢
    split_ifs at hinv ⊢ <;> omega
  | case14 rest st hd h2 h3 h4 h5 h6 h7 ih =>
    intro h hinv
    simp [scanLoop, hd]
    exact ih (fun c hc => h c (List.mem_cons_of_mem _ hc)) (by simp [openCount, noFormat])
  | case15 rest st hd h2 h3 h4 h5 h6 h7 ih =>
    intro h hinv
    simp [scanLoop, hd]
    exact ih (fun c hc => h c (List.mem_cons_of_mem _ hc)) (by simp [openCount, noFormat])
  | case16 c rest st h2 h3 h4 h5 h6 h7 h8 hdot ih =>
    intro h hinv
    simp [scanLoop, h2, h3, h4, h5, h6, h7, h8, hdot]
    exact ih (fun x hx => h x (List.mem_cons_of_mem _ hx)) hinv
  | case17 c rest st h2 h3 h4 h5 h6 h7 h8 hdot ih =>
    intro h hinv
    simp [scanLoop, h2, h3, h4, h5, h6, h7, h8, hdot]
    exact ih (fun x hx => h x (List.mem_cons_of_mem _ hx)) hinv

/-- Processing a reset from any state with non-negative depth emits exactly
`depth` closing elements and zeroes the depth and the format state. -/
theorem scanLoop_reset_step (f : SpanFormat) (pal : Nat → Option (List Char))
    (t : List Char) (st : ScanState) (h : 0 ≤ st.depth) :
    scanLoop f pal ('\x0F' :: t) st =
      scanLoop f pal t
        ⟨pushMarkup (repeatedClose st.depth.toNat) st.rout, noFormat, 0, st.potentialUrl⟩ := by
  rcases lt_or_eq_of_le h with hpos | heq
  · simp [scanLoop, hpos]
  · simp [scanLoop, ← heq, repeatedClose, pushMarkup]

/-- C2 (amended): for input made of style toggles and literal text (no
color marker, no interior reset), the depth after every prefix is
non-negative, the depth after the whole input equals the number of
currently-open elements (`openCount` of the attribute bits), and the
trailing reset emits exactly that many closing elements while zeroing the
depth and the format state.  For arbitrary inputs the depth counter can go
negative (see the counterexample). -/
theorem toHtml_depth_invariant (f : SpanFormat) (pal : Nat → Option (List Char))
    (s : List Char) (h : ∀ c ∈ s, c ≠ '\x03' ∧ c ≠ '\x0F') :
    (∀ p q : List Char, s = p ++ q → 0 ≤ (scanLoop f pal p initState).depth) ∧
    (scanLoop f pal s initState).depth = openCount (scanLoop f pal s initState).fmt ∧
    scanLoop f pal ['\x0F'] (scanLoop f pal s initState) =
      ⟨pushMarkup (repeatedClose (scanLoop f pal s initState).depth.toNat)
          (scanLoop f pal s initState).rout, noFormat, 0,
        (scanLoop f pal s initState).potentialUrl⟩ := by
  have hinv : ∀ p : List Char, (∀ c ∈ p, c ≠ '\x03') →
      (scanLoop f pal p initState).depth = openCount (scanLoop f pal p initState).fmt :=
    fun p hp =>
      scanLoop_depth_eq_openCount f pal p initState hp (by simp [initState, openCount, noFormat])
  have hs3 : ∀ c ∈ s, c ≠ '\x03' := fun c hc => (h c hc).1
  refine ⟨?_, hinv s hs3, ?_⟩
  · intro p q hpq
    have hp3 : ∀ c ∈ p, c ≠ '\x03' := fun c hc => (h c (hpq ▸ List.mem_append_left q hc)).1
    rw [hinv p hp3]
    exact openCount_nonneg _
  · have hd : 0 ≤ (scanLoop f pal s initState).depth := by
      rw [hinv s hs3]
      exact openCount_nonneg _
    rw [scanLoop_reset_step f pal [] _ hd]
    simp [scanLoop]

/-- C2 counterexample: on the input "\x03a" — a malformed color marker at
depth 0 — the scanner's depth counter ends at −1, so over arbitrary inputs
the depth counter is not "never negative". -/
theorem depth_negative_cex :
    (scanLoop SpanFormat.spanStyle (fun _ => none) ['\x03', 'a'] initState).depth = -1 := by
  simp [scanLoop, parseColors, takeDigits2, initState, pushMarkup, closeSpan]

/-- Witness for C2 at the concrete input "\x02" (one bold toggle). -/
theorem toHtml_depth_invariant_witness :
    (scanLoop SpanFormat.spanStyle (fun _ => none) ['\x02'] initState).depth =
      openCount (scanLoop SpanFormat.spanStyle (fun _ => none) ['\x02'] initState).fmt :=
  (toHtml_depth_invariant SpanFormat.spanStyle (fun _ => none) ['\x02'] (by decide)).2.1

/-! ### Escaping of literal text -/

/-- Literal-tagged characters pass through `pushMarkup` untouched: a
replacement only adds markup-tagged characters. -/
theorem lit_mem_pushMarkup (c : Char) (r : List Char) (out : List OutChar) :
    OutChar.lit c ∈ pushMarkup r out ↔ OutChar.lit c ∈ out := by
  simp [pushMarkup]

/-- Every literal-tagged character of the scan output was already in the
initial output or is a character of the scanned text: the scanner copies
literal characters and never fabricates one. -/
theorem scanLoop_lit_mem (f : SpanFormat) (pal : Nat → Option (List Char)) :
    ∀ (rem : List Char) (st : ScanState) (c : Char),
      OutChar.lit c ∈ (scanLoop f pal rem st).rout → OutChar.lit c ∈ st.rout ∨ c ∈ rem := by
  intro rem st
  induction rem, st using scanLoop.induct f pal with
  | case1 st =>
    intro c hc
    simp only [scanLoop] at hc
    exact Or.inl hc
  | case2 rest st hb ih =>
    intro c hc
    simp [scanLoop, hb] at hc
    rcases ih c hc with h | h
    · exact Or.inl ((lit_mem_pushMarkup c _ _).mp h)
    · exact Or.inr (List.mem_cons_of_mem _ h)
  | case3 rest st hb ih =>
    intro c hc
    simp [scanLoop, hb] at hc
    rcases ih c hc with h | h
    · exact Or.inl ((lit_mem_pushMarkup c _ _).mp h)
    · exact Or.inr (List.mem_cons_of_mem _ h)
  | case4 rest st len fg bg hpc hne ih =>
    intro c hc
    simp [scanLoop, hpc] at hc
    rcases ih c hc with h | h
    · exact Or.inl ((lit_mem_pushMarkup c _ _).mp h)
    · exact Or.inr (List.mem_cons_of_mem _ (List.mem_of_mem_drop h))
  | case5 rest st hpc hne ih =>
    intro c hc
    simp [scanLoop, hpc] at hc
    rcases ih c hc with h | h
    · exact Or.inl ((lit_mem_pushMarkup c _ _).mp h)
    · exact Or.inr (List.mem_cons_of_mem _ h)
  | case6 rest st hb h2 h3 ih =>
    intro c hc
    simp [scanLoop, hb] at hc
    rcases ih c hc with h | h
    · exact Or.inl ((lit_mem_pushMarkup c _ _).mp h)
    · exact Or.inr (List.mem_cons_of_mem _ h)
  | case7 rest st hb h2 h3 ih =>
    intro c hc
    simp [scanLoop, hb] at hc
    rcases ih c hc with h | h
    · exact Or.inl ((lit_mem_pushMarkup c _ _).mp h)
    · exact Or.inr (List.mem_cons_of_mem _ h)
  | case8 rest st hb h2 h3 h4 ih =>
    intro c hc
    simp [scanLoop, hb] at hc
    rcases ih c hc with h | h
    · exact Or.inl ((lit_mem_pushMarkup c _ _).mp h)
    · exact Or.inr (List.mem_cons_of_mem _ h)
  | case9 rest st hb h2 h3 h4 ih =>
    intro c hc
    simp [scanLoop, hb] at hc
    rcases ih c hc with h | h
    · exact Or.inl ((lit_mem_pushMarkup c _ _).mp h)
    · exact Or.inr (List.mem_cons_of_mem _ h)
  | case10 c0 rest st h2 h3 h4 h5 hul hb ih =>
    intro c hc
    simp [scanLoop, h2, h3, h4, h5, hul, hb] at hc
    rcases ih c hc with h | h
    · exact Or.inl ((lit_mem_pushMarkup c _ _).mp h)
    · exact Or.inr (List.mem_cons_of_mem _ h)
  | case11 c0 rest st h2 h3 h4 h5 hul hb ih =>
    intro c hc
    simp [scanLoop, h2, h3, h4, h5, hul, hb] at hc
    rcases ih c hc with h | h
    · exact Or.inl ((lit_mem_pushMarkup c _ _).mp h)
    · exact Or.inr (List.mem_cons_of_mem _ h)
  | case12 rest st hb h2 h3 h4 h5 h6 ih =>
    intro c hc
    simp [scanLoop, hb] at hc
    rcases ih c hc with h | h
    · exact Or.inl ((lit_mem_pushMarkup c _ _).mp h)
    · exact Or.inr (List.mem_cons_of_mem _ h)
  | case13 rest st hb h2 h3 h4 h5 h6 ih =>
    intro c hc
    simp [scanLoop, hb] at hc
    rcases ih c hc with h | h
    · exact Or.inl ((lit_mem_pushMarkup c _ _).mp h)
    · exact Or.inr (List.mem_cons_of_mem _ h)
  | case14 rest st hd h2 h3 h4 h5 h6 h7 ih =>
    intro c hc
    simp [scanLoop, hd] at hc
    rcases ih c hc with h | h
    · exact Or.inl ((lit_mem_pushMarkup c _ _).mp h)
    · exact Or.inr (List.mem_cons_of_mem _ h)
  | case15 rest st hd h2 h3 h4 h5 h6 h7 ih =>
    intro c hc
    simp [scanLoop, hd] at hc
    rcases ih c hc with h | h
    · exact Or.inl h
    · exact Or.inr (List.mem_cons_of_mem _ h)
  | case16 c0 rest st h2 h3 h4 h5 h6 h7 h8 hdot ih =>
    intro c hc
    simp [scanLoop, h2, h3, h4, h5, h6, h7, h8, hdot] at hc
    rcases ih c hc with h | h
    · rcases List.mem_cons.mp h with he | hm
      · exact Or.inr (by rw [OutChar.lit.injEq] at he; rw [he]; exact List.mem_cons_self _ _)
      · exact Or.inl hm
    · exact Or.inr (List.mem_cons_of_mem _ h)
  | case17 c0 rest st h2 h3 h4 h5 h6 h7 h8 hdot ih =>
    intro c hc
    simp [scanLoop, h2, h3, h4, h5, h6, h7, h8, hdot] at hc
    rcases ih c hc with h | h
    · rcases List.mem_cons.mp h with he | hm
      · exact Or.inr (by rw [OutChar.lit.injEq] at he; rw [he]; exact List.mem_cons_self _ _)
      · exact Or.inl hm
    · exact Or.inr (List.mem_cons_of_mem _ h)

/-- The escaped text contains no literal `<`. -/
theorem escapeLt_no_lt (s : List Char) : '<' ∉ escapeLt s := by
  induction s with
  | nil => simp [escapeLt]
  | cons c rest ih =>
    by_cases hc : c = '<'
    · simp [escapeLt, hc, ih]
    · simp [escapeLt, hc, ih, Ne.symm hc]

/-- The escaping step touches nothing but `<`: text without `<` passes
through unchanged. -/
theorem escapeLt_id_of_no_lt (s : List Char) (h : ∀ c ∈ s, c ≠ '<') : escapeLt s = s := by
  induction s with
  | nil => rfl
  | cons c rest ih =>
    simp [escapeLt, h c (List.mem_cons_self c rest)]
    exact ih fun x hx => h x (List.mem_cons_of_mem _ hx)

/-- C4: every literal `<` of the input is replaced by its entity before the
scan, so no literal-tagged character of the `toHtml` output is `<` — an
unescaped `<` in the output can only come from generated markup, never from
input literal text; and no other character of the input is escaped: input
free of `<` passes the escaping step unchanged. -/
theorem toHtml_lt_escaped (f : SpanFormat) (pal : Nat → Option (List Char)) (s : List Char) :
    (∀ c : Char, OutChar.lit c ∈ (scanText f pal s).rout → c ≠ '<') ∧
    '<' ∉ escapeLt s ∧
    ((∀ c ∈ s, c ≠ '<') → escapeLt s = s) := by
  refine ⟨?_, escapeLt_no_lt s, escapeLt_id_of_no_lt s⟩
  intro c hc hlt
  subst hlt
  rcases scanLoop_lit_mem f pal (escapeLt s) initState '<' hc with h | h
  · simp [initState] at h
  · exact escapeLt_no_lt s h

/-- Witness for C4 at the concrete input "a". -/
theorem toHtml_lt_escaped_witness :
    ('a' ≠ '<') ∧ escapeLt ['a'] = ['a'] :=
  ⟨(toHtml_lt_escaped SpanFormat.spanStyle (fun _ => none) ['a']).1 'a'
      (by simp [scanText, scanLoop, escapeLt, initState]),
   (toHtml_lt_escaped SpanFormat.spanStyle (fun _ => none) ['a']).2.2 (by decide)⟩

/-! ### The potential-URL heuristic -/

/-- The potential-URL flag decomposes over its initial value: scanning with
initial flag `b` yields `b ||` (the flag computed from a clear start).  In
particular (`b = true`) the flag is sticky for the whole call, and the rest
of the state never depends on it. -/
theorem scanLoop_flag_or (f : SpanFormat) (pal : Nat → Option (List Char)) :
    ∀ (rem : List Char) (st : ScanState) (b : Bool),
      (scanLoop f pal rem (setFlag st b)).potentialUrl =
        (b || (scanLoop f pal rem (setFlag st false)).potentialUrl) := by
  intro rem st
  induction rem, st using scanLoop.induct f pal with
  | case1 st => intro b; simp [scanLoop, setFlag]
  | case2 rest st hb ih =>
    intro b
    simp [scanLoop, setFlag, hb]
    exact ih b
  | case3 rest st hb ih =>
    intro b
    simp [scanLoop, setFlag, hb]
    exact ih b
  | case4 rest st len fg bg hpc hne ih =>
    intro b
    simp [scanLoop, setFlag, hpc]
    exact ih b
  | case5 rest st hpc hne ih =>
    intro b
    simp [scanLoop, setFlag, hpc]
    exact ih b
  | case6 rest st hb h2 h3 ih =>
    intro b
    simp [scanLoop, setFlag, hb]
    exact ih b
  | case7 rest st hb h2 h3 ih =>
    intro b
    simp [scanLoop, setFlag, hb]
    exact ih b
  | case8 rest st hb h2 h3 h4 ih =>
    intro b
    simp [scanLoop, setFlag, hb]
    exact ih b
  | case9 rest st hb h2 h3 h4 ih =>
    intro b
    simp [scanLoop, setFlag, hb]
    exact ih b
  | case10 c0 rest st h2 h3 h4 h5 hul hb ih =>
    intro b
    simp [scanLoop, setFlag, h2, h3, h4, h5, hul, hb]
    exact ih b
  | case11 c0 rest st h2 h3 h4 h5 hul hb ih =>
    intro b
    simp [scanLoop, setFlag, h2, h3, h4, h5, hul, hb]
    exact ih b
  | case12 rest st hb h2 h3 h4 h5 h6 ih =>
    intro b
    simp [scanLoop, setFlag, hb]
    exact ih b
  | case13 rest st hb h2 h3 h4 h5 h6 ih =>
    intro b
    simp [scanLoop, setFlag, hb]
    exact ih b
  | case14 rest st hd h2 h3 h4 h5 h6 h7 ih =>
    intro b
    simp [scanLoop, setFlag, hd]
    exact ih b
  | case15 rest st hd h2 h3 h4 h5 h6 h7 ih =>
    intro b
    simp [scanLoop, setFlag, hd]
    exact ih b
  | case16 c0 rest st h2 h3 h4 h5 h6 h7 h8 hdot ih =>
    intro b
    simp [scanLoop, setFlag, h2, h3, h4, h5, h6, h7, h8, hdot]
    have e1 :
        (scanLoop f pal rest
          ⟨OutChar.lit c0 :: st.rout, st.fmt, st.depth,
            b || (routHeadNonSpace st.rout && headNonSpace rest)⟩).potentialUrl =
        ((b || (routHeadNonSpace st.rout && headNonSpace rest)) ||
          (scanLoop f pal rest
            ⟨OutChar.lit c0 :: st.rout, st.fmt, st.depth, false⟩).potentialUrl) :=
      ih (b || (routHeadNonSpace st.rout && headNonSpace rest))
    have e2 :
        (scanLoop f pal rest
          ⟨OutChar.lit c0 :: st.rout, st.fmt, st.depth,
            routHeadNonSpace st.rout && headNonSpace rest⟩).potentialUrl =
        ((routHeadNonSpace st.rout && headNonSpace rest) ||
          (scanLoop f pal rest
            ⟨OutChar.lit c0 :: st.rout, st.fmt, st.depth, false⟩).potentialUrl) :=
      ih (routHeadNonSpace st.rout && headNonSpace rest)
    rw [e1, e2, Bool.or_assoc]
  | case17 c0 rest st h2 h3 h4 h5 h6 h7 h8 hdot ih =>
    intro b
    simp [scanLoop, setFlag, h2, h3, h4, h5, h6, h7, h8, hdot]
    exact ih b

/-- C6: (1) processing a `.`, `/` or `:` ors into the sticky flag exactly
the condition "the previously emitted character exists and is non-space and
the next remaining character exists and is non-space" — so such a character
at the start or end of the text, or adjacent to a space, does not set the
flag; (2) the flag decomposes over its initial value (with initial value
`true` it stays set: it is sticky, and nothing else depends on it); (3)
`toHtml` runs the link-detection pass over the fully substituted string iff
the flag is set and the link pattern is non-empty. -/
theorem toHtml_potential_url (f : SpanFormat) (pal : Nat → Option (List Char)) :
    (∀ (c : Char) (rest : List Char) (st : ScanState), c = '.' ∨ c = '/' ∨ c = ':' →
      scanLoop f pal (c :: rest) st =
        scanLoop f pal rest
          ⟨OutChar.lit c :: st.rout, st.fmt, st.depth,
            st.potentialUrl || (routHeadNonSpace st.rout && headNonSpace rest)⟩) ∧
    (∀ (rem : List Char) (st : ScanState) (b : Bool),
      (scanLoop f pal rem (setFlag st b)).potentialUrl =
        (b || (scanLoop f pal rem (setFlag st false)).potentialUrl)) ∧
    (∀ (urlPattern : List Char) (matcher : Matcher) (fuel : Nat) (s : List Char),
      toHtml f pal urlPattern matcher fuel s =
        if (scanText f pal s).potentialUrl && !urlPattern.isEmpty then
          parseLinks matcher fuel (rendered (scanText f pal s)) 0
        else rendered (scanText f pal s)) := by
  refine ⟨?_, scanLoop_flag_or f pal, fun _ _ _ _ => rfl⟩
  rintro c rest st (rfl | rfl | rfl) <;> simp [scanLoop]

/-- Witness for C6: one step on '.' from the initial state. -/
theorem toHtml_potential_url_witness :
    scanLoop SpanFormat.spanStyle (fun _ => none) ['.'] initState =
      scanLoop SpanFormat.spanStyle (fun _ => none) []
        ⟨OutChar.lit '.' :: initState.rout, initState.fmt, initState.depth,
          initState.potentialUrl || (routHeadNonSpace initState.rout && headNonSpace [])⟩ :=
  (toHtml_potential_url SpanFormat.spanStyle (fun _ => none)).1 '.' [] initState (Or.inl rfl)

/-! ### Link rewriting -/

/-- C5: one iteration of `parseLinks` on a match whose scheme capture group
(`cap(2)`) is empty, for a pattern — like the shipped default — whose first
capture group is the whole matched text: the prepended scheme is `mailto:`
when the matched text contains `@`, else `ftp://` when it starts
case-insensitively with `ftp.`, else `http://`; the matched range is
replaced by an anchor whose href is the scheme followed by the
percent-encoded matched text and whose visible text is the original matched
text, scanning resuming immediately after the anchor; and every character
of the exclude set `:/?@%#=+&,` is left unescaped by the encoding. -/
theorem parseLinks_step (matcher : Matcher) (fuel : Nat) (processed : List Char) (pos : Nat)
    (m : RegexMatch) (hm : matcher processed pos = some m) (hcap2 : m.cap2 = [])
    (hcap1 : m.cap1 = (processed.drop m.pos).take m.len) :
    linkProtocol m.cap1 m.cap2 =
      (if ((processed.drop m.pos).take m.len).contains '@' then "mailto:".toList
       else if startsWithCI "ftp.".toList ((processed.drop m.pos).take m.len) then
         "ftp://".toList
       else "http://".toList) ∧
    parseLinks matcher (fuel + 1) processed pos =
      parseLinks matcher fuel
        (processed.take m.pos ++
          generateLink (linkProtocol m.cap1 m.cap2) ((processed.drop m.pos).take m.len) ++
          processed.drop (m.pos + m.len))
        (m.pos +
          (generateLink (linkProtocol m.cap1 m.cap2)
            ((processed.drop m.pos).take m.len)).length) ∧
    generateLink (linkProtocol m.cap1 m.cap2) ((processed.drop m.pos).take m.len) =
      "<a href='".toList ++ linkProtocol m.cap1 m.cap2 ++
        toPercentEncoding ((processed.drop m.pos).take m.len) ++ "'>".toList ++
        (processed.drop m.pos).take m.len ++ "</a>".toList ∧
    (∀ c ∈ excludeChars, toPercentEncoding [c] = [c]) := by
  refine ⟨?_, ?_, rfl, by decide⟩
  · rw [hcap1, hcap2]
    simp [linkProtocol]
  · simp [parseLinks, hm]

/-- Witness for C5: a match of the whole text "a@b" with empty scheme
capture gets the `mailto:` scheme. -/
theorem parseLinks_step_witness :
    linkProtocol ['a', '@', 'b'] [] =
      (if ((['a', '@', 'b'].drop 0).take 3).contains '@' then "mailto:".toList
       else if startsWithCI "ftp.".toList ((['a', '@', 'b'].drop 0).take 3) then
         "ftp://".toList
       else "http://".toList) :=
  (parseLinks_step
    (fun _ p => if p = 0 then some ⟨0, 3, ['a', '@', 'b'], []⟩ else none) 0
    ['a', '@', 'b'] 0 ⟨0, 3, ['a', '@', 'b'], []⟩ (by decide) rfl (by decide)).1

/-! ### Behaviour on an uncompilable pattern -/

/-- An invalid pattern's engine reports no match, so `parseLinks` returns
its input unchanged, whatever the fuel. -/
theorem parseLinks_neverMatch (fuel : Nat) (processed : List Char) (pos : Nat) :
    parseLinks neverMatch fuel processed pos = processed := by
  cases fuel <;> simp [parseLinks, neverMatch]

/-- C7 (amended): a caller-supplied link pattern that fails to compile is
not surfaced as an error: `setUrlPattern` stores it without validation and
`toHtml` — whose result type carries no error channel — simply performs no
link replacement (the invalid pattern matches nothing) and returns the
span-converted text normally; `toHtml` never fails in any case. -/
theorem toHtml_invalid_pattern_silent (f : SpanFormat) (pal : Nat → Option (List Char))
    (urlPattern : List Char) (fuel : Nat) (s : List Char) :
    toHtml f pal urlPattern neverMatch fuel s = rendered (scanText f pal s) := by
  simp only [toHtml]
  split
  · exact parseLinks_neverMatch _ _ _
  · rfl

/-- C7 counterexample: with the uncompilable pattern "(" (unbalanced
parenthesis) and the input "a.b" — which sets the potential-URL flag, so
link detection is attempted — `toHtml` returns the text unchanged instead
of surfacing any configuration error: the failure is silently swallowed. -/
theorem toHtml_invalid_pattern_cex :
    toHtml SpanFormat.spanStyle (fun _ => none) ['('] neverMatch 1 "a.b".toList =
      "a.b".toList := by
  simp [toHtml, scanText, scanLoop, escapeLt, initState, rendered, neverMatch, parseLinks,
    OutChar.char, routHeadNonSpace, headNonSpace, isSpaceChar]

/-! ### The member display-order comparator -/

/-- C8: `IrcUserModel::lessThan` sorts a member whose prefix symbol occurs
in the prefix-priority list before one whose does not; when both symbols
occur at different positions the earlier one sorts first; in every other
case — both prefix-less (or unlisted), or equal positions — it falls back
to case-insensitive name comparison. -/
theorem lessThan_contract (symbols : List Char) (u v : IrcUser) :
    (0 ≤ prefixIndex symbols u ∧ prefixIndex symbols v < 0 →
      lessThan symbols u v = true) ∧
    (prefixIndex symbols u < 0 ∧ 0 ≤ prefixIndex symbols v →
      lessThan symbols u v = false) ∧
    (0 ≤ prefixIndex symbols u → 0 ≤ prefixIndex symbols v →
      prefixIndex symbols u ≠ prefixIndex symbols v →
      (lessThan symbols u v = true ↔ prefixIndex symbols u < prefixIndex symbols v)) ∧
    ((prefixIndex symbols u < 0 ∧ prefixIndex symbols v < 0) ∨
        prefixIndex symbols u = prefixIndex symbols v →
      lessThan symbols u v = decide (compareCI u.name v.name = Ordering.lt)) := by
  refine ⟨fun h => ?_, fun h => ?_, fun h1 h2 h3 => ?_, fun h => ?_⟩
  · simp [lessThan, h.1, h.2]
  · simp [lessThan, h.1, h.2, show ¬(0 ≤ prefixIndex symbols u) by omega,
      show ¬(prefixIndex symbols v < 0) by omega]
  · simp [lessThan, h1, h2, h3, show ¬(prefixIndex symbols u < 0) by omega,
      show ¬(prefixIndex symbols v < 0) by omega]
  · rcases h with ⟨ha, hb⟩ | he
    · simp [lessThan, ha, hb, show ¬(0 ≤ prefixIndex symbols u) by omega,
        show ¬(0 ≤ prefixIndex symbols v) by omega]
    · rcases le_or_lt 0 (prefixIndex symbols u) with hpos | hneg
      · simp [lessThan, he, hpos, show ¬(prefixIndex symbols v < 0) by omega,
          show ¬(prefixIndex symbols u < 0) by omega]
      · simp [lessThan, he, show prefixIndex symbols v < 0 by omega,
          show ¬(0 ≤ prefixIndex symbols v) by omega,
          show ¬(0 ≤ prefixIndex symbols u) by omega]

/-- Witness for C8: "@"-prefixed member sorts before a prefix-less one
under the priority list "@+". -/
theorem lessThan_contract_witness :
    (0 ≤ prefixIndex ['@', '+'] ⟨['@'], ['b']⟩ ∧ prefixIndex ['@', '+'] ⟨[], ['a']⟩ < 0) ∧
    lessThan ['@', '+'] ⟨['@'], ['b']⟩ ⟨[], ['a']⟩ = true :=
  ⟨⟨by decide, by decide⟩,
   (lessThan_contract ['@', '+'] ⟨['@'], ['b']⟩ ⟨[], ['a']⟩).1 ⟨by decide, by decide⟩⟩

/-! ### Out-of-range access in the user model -/

/-- C10: for every integer index outside `[0, count)`,
`IrcUserModel::get` returns the null pointer rather than failing, and the
model's user list is unchanged by the call. -/
theorem userModelGet_out_of_range (l : List IrcUser) (i : Int)
    (h : i < 0 ∨ (l.length : Int) ≤ i) :
    userModelGet l i = (none, l) := by
  unfold userModelGet listValue
  rcases h with h | h
  · rw [if_neg (by omega)]
  · rcases le_or_lt 0 i with h0 | h0
    · rw [if_pos h0]
      have hlen : l.length ≤ i.toNat := by omega
      rw [List.get?_eq_none.mpr hlen]
    · rw [if_neg (by omega)]

/-- Witness for C10 at the empty model and index 5. -/
theorem userModelGet_out_of_range_witness :
    userModelGet [] 5 = (none, []) :=
  userModelGet_out_of_range [] 5 (by decide)

end Communi
